import Mathlib

/-!
Verification of the per-resource lock manager of the kpi-dashboard backend.

The embedded code is the `LockManager` class and the `concurrencyMiddleware`
factory (`src/unnamed/part_000`, lines 122-224): a process-wide table of held
locks keyed by `"resourceType:resourceId"`, a polling `acquireLock` with a
bounded wait, a non-blocking `releaseLock`, a staleness sweep
`cleanupStaleLocks`, and an HTTP middleware adapter that wraps mutating
requests in an acquire/release pair.

Modelling choices:
* The JS `Map` held in `this.locks` is modelled as an association list
  `List (String × LockEntry)`; `Map.set` replaces in place when the key is
  present and appends otherwise, `Map.delete` removes the key's entry,
  `Map.has` is key membership.  Key equality is JS string equality.
* The event loop is modelled by atomicity granularity: code between two
  `await` points runs atomically, so the `while`-loop availability check of
  `acquireLock` together with the subsequent `locks.set` is one atomic step
  (there is no `await` between the final `has` check and the `set`).
* Timing of `acquireLock` is idealised: the n-th availability check happens
  exactly `100 * n` ms after the call began (the code sleeps 100 ms between
  checks and the check itself is instantaneous).
* Wall-clock timestamps are natural numbers (ms).  `now - timestamp` uses
  truncated subtraction, which agrees with the JS comparison
  `now - lock.timestamp > 30000` for every `now < timestamp` as well (both
  sides then keep the entry).
-/

namespace KpiLock

/-- One held lock, as stored in `this.locks` (lines 148-152):
`{ timestamp, resourceType, resourceId }`. -/
structure LockEntry where
  timestamp : Nat
  resourceType : String
  resourceId : String
deriving DecidableEq

/-- The lock table `this.locks`: a JS `Map` from serialized lock key to
`LockEntry`, modelled as an association list in insertion order. -/
abbrev LockTable := List (String × LockEntry)

/-- `LockManager._getLockKey(resourceType, resourceId)` (lines 131-133):
the template literal `` `${resourceType}:${resourceId}` ``. -/
def getLockKey (resourceType resourceId : String) : String :=
  resourceType ++ ":" ++ resourceId

/-- `this.locks.has(k)`: whether an entry for key `k` is in the table. -/
def hasKey (tbl : LockTable) (k : String) : Bool :=
  tbl.any (fun p => p.1 == k)

/-- `this.locks.get(k)`-style lookup: the entry stored under key `k`. -/
def findEntry (tbl : LockTable) (k : String) : Option LockEntry :=
  (tbl.find? (fun p => p.1 == k)).map Prod.snd

/-- `this.locks.set(k, e)`: JS `Map.set` replaces the value in place when the
key is already present and appends a new entry otherwise. -/
def setKey (tbl : LockTable) (k : String) (e : LockEntry) : LockTable :=
  if hasKey tbl k then tbl.map (fun p => if p.1 == k then (k, e) else p)
  else tbl ++ [(k, e)]

/-- `this.locks.delete(k)`: removes the entry for key `k`. -/
def deleteKey (tbl : LockTable) (k : String) : LockTable :=
  tbl.filter (fun p => p.1 != k)

/-- The default `maxWaitTime` of `acquireLock` (line 136): 5000 ms. -/
def defaultMaxWaitTime : Nat := 5000

/-- The polling interval of `acquireLock`'s wait loop (line 145): 100 ms. -/
def pollInterval : Nat := 100

/-- The staleness threshold of `cleanupStaleLocks` (line 180): 30000 ms. -/
def staleMaxAge : Nat := 30000

/-- `LockManager.releaseLock(resourceType, resourceId)` (lines 159-169):
deletes the key's entry if present and reports whether one was removed.
Returns the table after the call and the boolean result. -/
def releaseLock (resourceType resourceId : String) (tbl : LockTable) :
    LockTable × Bool :=
  let lockKey := getLockKey resourceType resourceId
  if hasKey tbl lockKey then (deleteKey tbl lockKey, true)
  else (tbl, false)

/-- `LockManager.isLocked(resourceType, resourceId)` (lines 172-174). -/
def isLocked (resourceType resourceId : String) (tbl : LockTable) : Bool :=
  hasKey tbl (getLockKey resourceType resourceId)

/-- `LockManager.cleanupStaleLocks()` (lines 177-185): iterates over the
entries and deletes every lock with `now - lock.timestamp > 30000`; deleting
the entry under iteration is safe on a JS `Map`, so the pass is a filter. -/
def cleanupStaleLocks (now : Nat) (tbl : LockTable) : LockTable :=
  tbl.filter (fun p => !(now - p.2.timestamp > staleMaxAge))

/-- The atomic availability-check-and-insert inside `acquireLock`
(lines 140 and 148-152): between the `while` condition observing the key
free and `this.locks.set` there is no `await`, so no other task can run in
between.  Returns `none` when the key is held (the caller keeps waiting)
and the updated table when the insert wins. -/
def acquireNow (resourceType resourceId : String) (now : Nat)
    (tbl : LockTable) : Option LockTable :=
  let lockKey := getLockKey resourceType resourceId
  if hasKey tbl lockKey then none
  else some (setKey tbl lockKey ⟨now, resourceType, resourceId⟩)

/-- Outcome of one `acquireLock` call, with the elapsed time (ms since the
call began) at which it returned or threw. -/
inductive AcquireResult where
  | success (elapsed : Nat)
  | timeout (elapsed : Nat)
deriving DecidableEq

/-- The wait loop of `acquireLock` (lines 140-156) under idealised timing:
`held n` is what `this.locks.has(lockKey)` observes at the n-th poll, which
happens `100 * n` ms after the call began.  While the key is held the loop
throws `Error('Lock acquisition timeout')` as soon as the elapsed time
exceeds `maxWaitTime`, otherwise sleeps 100 ms and re-polls; at the first
poll that observes the key free it exits the loop, inserts, and returns. -/
def acquirePoll (held : Nat → Bool) (maxWaitTime : Nat) (n : Nat) :
    AcquireResult :=
  if held n then
    if 100 * n > maxWaitTime then .timeout (100 * n)
    else acquirePoll held maxWaitTime (n + 1)
  else .success (100 * n)
termination_by maxWaitTime / 100 + 1 - n
decreasing_by
  have : n ≤ maxWaitTime / 100 :=
    (Nat.le_div_iff_mul_le (by omega)).mpr (by omega)
  omega

/-- The slice of an Express request the middleware looks at (lines 195-198):
the HTTP method and the `:id` path parameter (`req.params.id`), which is
absent when the route has no `:id` segment. -/
structure Req where
  method : String
  paramsId : Option String

/-- JS truthiness of `req.params.id` as tested by `!resourceId` (line 198):
`undefined` and the empty string are falsy, every other string is truthy. -/
def jsTruthy : Option String → Bool
  | none => false
  | some s => !(s == "")

/-- The methods intercepted by the middleware (line 198):
`['PUT', 'DELETE', 'PATCH']`. -/
def mutatingMethods : List String := ["PUT", "DELETE", "PATCH"]

/-- Outcome of the `await lockManager.acquireLock(...)` call as seen by the
middleware (line 203): either it resolved (yielding the table with the new
entry inserted) or it rejected with an `Error` carrying a message. -/
inductive AcqResult where
  | ok (tbl' : LockTable)
  | error (msg : String)

/-- The message of the error thrown by `acquireLock` on timeout (line 143),
matched by the middleware's `error.message` test (line 212). -/
def lockTimeoutMessage : String := "Lock acquisition timeout"

/-- The body of the 409 response (lines 213-215). -/
def conflictMessage : String :=
  "Resource is currently being modified by another request"

/-- What the middleware did with the request. -/
inductive MwAction where
  | passThrough
  | handlerInvoked
  | conflict409 (body : String)
  | nextError (msg : String)
deriving DecidableEq

/-- `concurrencyMiddleware(resourceType)` applied to one request
(lines 195-219): skips locking entirely when `req.params.id` is falsy or
the method is not PUT/DELETE/PATCH; otherwise, depending on how the
`acquireLock` call ended, invokes the wrapped handler, answers 409 on the
timeout error, or forwards any other error to `next`.  Returns the action
taken and the lock table after the call. -/
def concurrencyMiddleware (resourceType : String) (req : Req)
    (tbl : LockTable) (acq : AcqResult) : MwAction × LockTable :=
  if !jsTruthy req.paramsId || !(mutatingMethods.contains req.method) then
    (.passThrough, tbl)
  else
    match acq with
    | .ok tbl' => (.handlerInvoked, tbl')
    | .error msg =>
        if msg == lockTimeoutMessage then (.conflict409 conflictMessage, tbl)
        else (.nextError msg, tbl)

/-- How the response lifecycle of a locked request can end. -/
inductive ExitPath where
  | successSent
  | errorSent
  | aborted

/-- Node `http.ServerResponse` event semantics: the `finish` event is
emitted exactly when the response has been fully handed off to the
operating system (success or error body sent); when the client connection
is aborted before that, only `close` is emitted, never `finish`. -/
def finishFires : ExitPath → Bool
  | .successSent => true
  | .errorSent => true
  | .aborted => false

/-- Lines 205-208: after a successful acquisition the middleware registers
the release only on the `finish` event (`res.on('finish', ...)`), so the
table after the response lifecycle ends via `p` is released exactly when
`finish` fired on that path. -/
def tableAfterResponse (resourceType resourceId : String) (tbl : LockTable)
    (p : ExitPath) : LockTable :=
  if finishFires p then (releaseLock resourceType resourceId tbl).1 else tbl

/-- State of one logical task (in-flight request) with respect to one
`acquireLock`/`releaseLock` pair: still polling inside `acquireLock`,
holding the lock, thrown out on timeout, or finished after releasing. -/
inductive TaskState where
  | waiting (resourceType resourceId : String)
  | holding (resourceType resourceId : String)
  | timedOut
  | done
deriving DecidableEq

/-- The process-wide shared state: the singleton `lockManager.locks` table
plus the state of every logical task (tasks are indexed by `Nat`; indices
not in use just stay `done`). -/
structure SysState where
  table : LockTable
  tasks : Nat → TaskState

/-- Point update of the task map. -/
def updateTask (tasks : Nat → TaskState) (i : Nat) (v : TaskState) :
    Nat → TaskState :=
  fun j => if j = i then v else tasks j

/-- One atomic event-loop turn of the lock manager.  Because the event loop
never preempts synchronous code, each constructor is exactly the code that
runs between two `await` points in `acquireLock`/`releaseLock`:
* `acquireWin`: a waiting task's poll observes the key free and the same
  turn executes `this.locks.set` (lines 140, 148-152);
* `acquireTimeout`: a poll observes the key held with the deadline passed
  and throws (lines 141-144);
* `releaseStep`: a holder runs `releaseLock` (lines 159-169). -/
inductive LockStep : SysState → SysState → Prop where
  | acquireWin (s : SysState) (i : Nat) (rt ri : String) (now : Nat) :
      s.tasks i = .waiting rt ri →
      hasKey s.table (getLockKey rt ri) = false →
      LockStep s ⟨setKey s.table (getLockKey rt ri) ⟨now, rt, ri⟩,
        updateTask s.tasks i (.holding rt ri)⟩
  | acquireTimeout (s : SysState) (i : Nat) (rt ri : String) :
      s.tasks i = .waiting rt ri →
      hasKey s.table (getLockKey rt ri) = true →
      LockStep s ⟨s.table, updateTask s.tasks i .timedOut⟩
  | releaseStep (s : SysState) (i : Nat) (rt ri : String) :
      s.tasks i = .holding rt ri →
      LockStep s ⟨(releaseLock rt ri s.table).1, updateTask s.tasks i .done⟩

/-- Reachability under interleaved lock-manager turns. -/
def Reachable : SysState → SysState → Prop :=
  Relation.ReflTransGen LockStep

/-- A legal start state: the module-level singleton starts with
`this.locks = new Map()` (line 126), i.e. an empty table, and no task holds
a lock yet. -/
def InitOk (s : SysState) : Prop :=
  s.table = [] ∧ ∀ i rt ri, s.tasks i ≠ .holding rt ri

/-- The table's serialized keys are pairwise distinct (what being a JS
`Map` guarantees for `this.locks`). -/
def keysNodup (tbl : LockTable) : Prop :=
  (tbl.map Prod.fst).Nodup

/-- The inductive invariant behind mutual exclusion: distinct table keys,
at most one holder per lock key, and every holder's key present in the
table. -/
def MutexInv (s : SysState) : Prop :=
  keysNodup s.table ∧
  (∀ i j rt ri rt' ri', s.tasks i = .holding rt ri →
    s.tasks j = .holding rt' ri' →
    getLockKey rt ri = getLockKey rt' ri' → i = j) ∧
  (∀ i rt ri, s.tasks i = .holding rt ri →
    hasKey s.table (getLockKey rt ri) = true)

/-! ### Helper lemmas about the table operations -/

theorem hasKey_iff_mem (tbl : LockTable) (k : String) :
    hasKey tbl k = true ↔ k ∈ tbl.map Prod.fst := by
  simp [hasKey, List.any_eq_true, List.mem_map]

theorem hasKey_eq_false_iff (tbl : LockTable) (k : String) :
    hasKey tbl k = false ↔ k ∉ tbl.map Prod.fst := by
  rw [Bool.eq_false_iff]
  exact not_congr (hasKey_iff_mem tbl k)

theorem setKey_of_not_has (tbl : LockTable) (k : String) (e : LockEntry)
    (h : hasKey tbl k = false) : setKey tbl k e = tbl ++ [(k, e)] := by
  simp [setKey, h]

theorem hasKey_append (t₁ t₂ : LockTable) (k : String) :
    hasKey (t₁ ++ t₂) k = (hasKey t₁ k || hasKey t₂ k) :=
  List.any_append

theorem hasKey_deleteKey_self (tbl : LockTable) (k : String) :
    hasKey (deleteKey tbl k) k = false := by
  rw [hasKey_eq_false_iff]
  intro hmem
  rw [List.mem_map] at hmem
  obtain ⟨p, hp, he⟩ := hmem
  have := (List.mem_filter.mp hp).2
  rw [bne_iff_ne] at this
  exact this he

theorem hasKey_deleteKey_ne (tbl : LockTable) (k k' : String)
    (h : k' ≠ k) : hasKey (deleteKey tbl k) k' = hasKey tbl k' := by
  rw [Bool.eq_iff_iff, hasKey_iff_mem, hasKey_iff_mem]
  constructor
  · intro hmem
    rw [List.mem_map] at hmem ⊢
    obtain ⟨p, hp, he⟩ := hmem
    exact ⟨p, (List.mem_filter.mp hp).1, he⟩
  · intro hmem
    rw [List.mem_map] at hmem ⊢
    obtain ⟨p, hp, he⟩ := hmem
    refine ⟨p, List.mem_filter.mpr ⟨hp, ?_⟩, he⟩
    rw [bne_iff_ne, he]
    exact h

theorem findEntry_deleteKey_ne (tbl : LockTable) (k k' : String)
    (h : k' ≠ k) : findEntry (deleteKey tbl k) k' = findEntry tbl k' := by
  unfold findEntry deleteKey
  induction tbl with
  | nil => rfl
  | cons q tl ih =>
      by_cases hqk : q.1 = k
      · have h1 : (q.1 != k) = false := by simp [hqk]
        have h2 : (q.1 == k') = false := by
          simp only [beq_eq_false_iff_ne, ne_eq, hqk]
          exact fun he => h he.symm
        simp only [List.filter_cons, h1, if_false, List.find?_cons, h2]
        exact ih
      · have h1 : (q.1 != k) = true := by simp [hqk]
        simp only [List.filter_cons, h1, if_true]
        by_cases hqk' : q.1 = k'
        · have h2 : (q.1 == k') = true := by simp [hqk']
          simp only [List.find?_cons, h2]
        · have h2 : (q.1 == k') = false := by simp [hqk']
          simp only [List.find?_cons, h2]
          exact ih

theorem keysNodup_deleteKey (tbl : LockTable) (k : String)
    (h : keysNodup tbl) : keysNodup (deleteKey tbl k) := by
  have hsub : List.Sublist ((deleteKey tbl k).map Prod.fst)
      (tbl.map Prod.fst) := (List.filter_sublist tbl).map Prod.fst
  exact h.sublist hsub

theorem keysNodup_append_new (tbl : LockTable) (k : String) (e : LockEntry)
    (hno : hasKey tbl k = false) (h : keysNodup tbl) :
    keysNodup (tbl ++ [(k, e)]) := by
  have hk : k ∉ tbl.map Prod.fst := (hasKey_eq_false_iff tbl k).mp hno
  unfold keysNodup at h ⊢
  rw [List.map_append]
  refine List.Nodup.append h (List.nodup_singleton k) ?_
  intro a ha hb
  simp only [List.map_cons, List.map_nil, List.mem_singleton] at hb
  rw [hb] at ha
  exact hk ha

theorem hasKey_filter_false (tbl : LockTable) (q : String × LockEntry → Bool)
    (k : String) (h : hasKey tbl k = false) :
    hasKey (tbl.filter q) k = false := by
  rw [hasKey_eq_false_iff] at h ⊢
  intro hmem
  apply h
  rw [List.mem_map] at hmem ⊢
  obtain ⟨p, hp, he⟩ := hmem
  exact ⟨p, (List.mem_filter.mp hp).1, he⟩

/-! ### Lock-key derivation (C4) -/

theorem append_colon_inj (l₁ : List Char) :
    ∀ (l₂ r₁ r₂ : List Char), ':' ∉ l₁ → ':' ∉ l₂ →
      l₁ ++ ':' :: r₁ = l₂ ++ ':' :: r₂ → l₁ = l₂ ∧ r₁ = r₂ := by
  induction l₁ with
  | nil =>
      intro l₂ r₁ r₂ h₁ h₂ he
      cases l₂ with
      | nil =>
          simp only [List.nil_append, List.cons.injEq] at he
          exact ⟨rfl, he.2⟩
      | cons c t =>
          simp only [List.nil_append, List.cons_append,
            List.cons.injEq] at he
          exact absurd (he.1 ▸ List.mem_cons_self c t) h₂
  | cons a t ih =>
      intro l₂ r₁ r₂ h₁ h₂ he
      cases l₂ with
      | nil =>
          simp only [List.cons_append, List.nil_append,
            List.cons.injEq] at he
          exact absurd (he.1 ▸ List.mem_cons_self a t) h₁
      | cons b t₂ =>
          simp only [List.cons_append, List.cons.injEq] at he
          obtain ⟨hab, he'⟩ := he
          have h₁' : ':' ∉ t := fun hm => h₁ (List.mem_cons_of_mem a hm)
          have h₂' : ':' ∉ t₂ := fun hm => h₂ (List.mem_cons_of_mem b hm)
          obtain ⟨ht, hr⟩ := ih t₂ r₁ r₂ h₁' h₂' he'
          exact ⟨by rw [hab, ht], hr⟩

/-- C4, counterexample: `_getLockKey` is not injective on raw string pairs —
a colon inside `resourceType` makes the two distinct pairs `("a:b", "c")`
and `("a", "b:c")` collide on the serialized key `"a:b:c"`, so they would
contend for the same lock. -/
theorem getLockKey_not_injective :
    getLockKey "a:b" "c" = getLockKey "a" "b:c" ∧
      ("a:b", "c") ≠ (("a", "b:c") : String × String) := by
  constructor
  · decide
  · decide

/-- C4, amended: when neither resource type contains a colon (true of every
resource type this codebase passes, e.g. `"job"`), two pairs derive the same
serialized lock key via `_getLockKey` exactly when both components agree as
exact strings. -/
theorem getLockKey_inj_of_no_colon (t₁ r₁ t₂ r₂ : String)
    (h₁ : ':' ∉ t₁.data) (h₂ : ':' ∉ t₂.data) :
    getLockKey t₁ r₁ = getLockKey t₂ r₂ ↔ (t₁ = t₂ ∧ r₁ = r₂) := by
  constructor
  · intro he
    unfold getLockKey at he
    rw [String.ext_iff] at he
    simp only [String.data_append] at he
    rw [List.append_assoc, List.append_assoc] at he
    simp only [List.singleton_append] at he
    obtain ⟨ht, hr⟩ := append_colon_inj t₁.data t₂.data r₁.data r₂.data h₁ h₂ he
    exact ⟨String.ext ht, String.ext hr⟩
  · rintro ⟨rfl, rfl⟩
    rfl

/-- Witness for C4's amended theorem at the concrete resource types of the
dashboard: `"job:1"` and `"job:2"` are different keys. -/
theorem getLockKey_inj_of_no_colon_witness :
    (getLockKey "job" "1" = getLockKey "job" "2") ↔
      ("job" = "job" ∧ "1" = "2") :=
  getLockKey_inj_of_no_colon "job" "1" "job" "2" (by decide) (by decide)

/-! ### Release contract (C5) -/

/-- C5: `releaseLock` returns `true` exactly when an entry for the key was
present (and then removes it), a second release in a row returns `false`,
the call never fails (it is a total function), and entries under every
other key are untouched. -/
theorem releaseLock_spec (rt ri : String) (tbl : LockTable) :
    ((releaseLock rt ri tbl).2 = hasKey tbl (getLockKey rt ri)) ∧
    hasKey (releaseLock rt ri tbl).1 (getLockKey rt ri) = false ∧
    (releaseLock rt ri (releaseLock rt ri tbl).1).2 = false ∧
    ∀ k, k ≠ getLockKey rt ri →
      findEntry (releaseLock rt ri tbl).1 k = findEntry tbl k := by
  by_cases hk : hasKey tbl (getLockKey rt ri) = true
  · have h1 : releaseLock rt ri tbl
        = (deleteKey tbl (getLockKey rt ri), true) := by
      simp [releaseLock, hk]
    have h2 : hasKey (deleteKey tbl (getLockKey rt ri))
        (getLockKey rt ri) = false := hasKey_deleteKey_self tbl _
    refine ⟨by rw [h1, hk], by rw [h1]; exact h2, ?_, ?_⟩
    · rw [h1]
      simp [releaseLock, h2]
    · intro k hkne
      rw [h1]
      exact findEntry_deleteKey_ne tbl _ k hkne
  · have hk' : hasKey tbl (getLockKey rt ri) = false :=
      Bool.eq_false_iff.mpr hk
    have h1 : releaseLock rt ri tbl = (tbl, false) := by
      simp [releaseLock, hk']
    refine ⟨by rw [h1, hk'], by rw [h1]; exact hk', by simp [h1, releaseLock, hk'], ?_⟩
    intro k _
    rw [h1]

/-- Witness for C5 on a one-entry table: releasing `("job","1")` removes it
and reports `true`, a repeat returns `false`, and the entry under the
unrelated key `"pad:2"` is unaffected. -/
theorem releaseLock_spec_witness :
    findEntry (releaseLock "job" "1"
        [(getLockKey "job" "1", ⟨0, "job", "1"⟩),
         (getLockKey "pad" "2", ⟨0, "pad", "2"⟩)]).1 "pad:2"
      = findEntry
        [(getLockKey "job" "1", ⟨0, "job", "1"⟩),
         (getLockKey "pad" "2", ⟨0, "pad", "2"⟩)] "pad:2" :=
  (releaseLock_spec "job" "1"
    [(getLockKey "job" "1", ⟨0, "job", "1"⟩),
     (getLockKey "pad" "2", ⟨0, "pad", "2"⟩)]).2.2.2 "pad:2" (by decide)

/-! ### Middleware release hook (C3) -/

/-- C3, failing input: the middleware registers its release only on the
`finish` event (line 206), and Node does not emit `finish` when the client
connection is aborted before the response completes — so on the aborted
exit path the entry for the locked key is still in the table afterwards,
while both body-sent paths do release it.  The lock is then reclaimed only
by the staleness sweep. -/
theorem release_hook_misses_abort :
    hasKey (tableAfterResponse "job" "42"
        [(getLockKey "job" "42", ⟨0, "job", "42"⟩)] .aborted)
      (getLockKey "job" "42") = true ∧
    hasKey (tableAfterResponse "job" "42"
        [(getLockKey "job" "42", ⟨0, "job", "42"⟩)] .successSent)
      (getLockKey "job" "42") = false ∧
    hasKey (tableAfterResponse "job" "42"
        [(getLockKey "job" "42", ⟨0, "job", "42"⟩)] .errorSent)
      (getLockKey "job" "42") = false := by
  refine ⟨by decide, by decide, by decide⟩

/-! ### Middleware interception filter (C7) -/

/-- C7: the middleware acquires a lock only when `req.params.id` is truthy
and the method is one of PUT/DELETE/PATCH; a GET (or any request with no
truthy path id) passes straight through with the lock table untouched,
whatever the lock manager would have answered. -/
theorem middleware_passthrough (resourceType : String) (req : Req)
    (tbl : LockTable) :
    ((req.method = "GET" ∨ jsTruthy req.paramsId = false) →
      ∀ acq, concurrencyMiddleware resourceType req tbl acq
        = (.passThrough, tbl)) ∧
    (∀ acq, (concurrencyMiddleware resourceType req tbl acq).1 ≠ .passThrough →
      jsTruthy req.paramsId = true ∧ req.method ∈ mutatingMethods) := by
  constructor
  · rintro (hg | hid) acq
    · have hnm : req.method ∉ mutatingMethods := by rw [hg]; decide
      simp [concurrencyMiddleware, hnm]
    · simp [concurrencyMiddleware, hid]
  · intro acq hne
    by_cases hid : jsTruthy req.paramsId = true
    · by_cases hmem : req.method ∈ mutatingMethods
      · exact ⟨hid, hmem⟩
      · exact absurd (by simp [concurrencyMiddleware, hmem] :
          (concurrencyMiddleware resourceType req tbl acq).1
            = .passThrough) hne
    · have hid' : jsTruthy req.paramsId = false := Bool.eq_false_iff.mpr hid
      exact absurd (by simp [concurrencyMiddleware, hid'] :
        (concurrencyMiddleware resourceType req tbl acq).1
          = .passThrough) hne

/-- Witness for C7: a GET for a currently locked job id is never blocked —
the middleware passes it through and leaves the table unchanged even though
an acquisition would have timed out. -/
theorem middleware_passthrough_witness :
    concurrencyMiddleware "job" ⟨"GET", some "42"⟩
        [(getLockKey "job" "42", ⟨0, "job", "42"⟩)]
        (.error lockTimeoutMessage)
      = (.passThrough, [(getLockKey "job" "42", ⟨0, "job", "42"⟩)]) :=
  (middleware_passthrough "job" ⟨"GET", some "42"⟩
    [(getLockKey "job" "42", ⟨0, "job", "42"⟩)]).1
    (Or.inl rfl) (.error lockTimeoutMessage)

/-! ### Middleware failure handling (C8) -/

/-- C8: when the acquisition rejects with the lock-timeout error the
middleware answers 409 with the conflict body and never reaches the wrapped
handler; any other rejection message is forwarded to `next(error)` instead
of being converted or swallowed. -/
theorem middleware_error_handling (resourceType : String) (req : Req)
    (tbl : LockTable) (hid : jsTruthy req.paramsId = true)
    (hmm : req.method ∈ mutatingMethods) :
    (concurrencyMiddleware resourceType req tbl (.error lockTimeoutMessage)
      = (.conflict409 conflictMessage, tbl)) ∧
    ∀ msg, msg ≠ lockTimeoutMessage →
      concurrencyMiddleware resourceType req tbl (.error msg)
        = (.nextError msg, tbl) := by
  constructor
  · simp [concurrencyMiddleware, hid, hmm]
  · intro msg hmsg
    simp [concurrencyMiddleware, hid, hmm, hmsg]

/-- Witness for C8: a PUT on job 42 whose acquisition times out gets the
409 conflict response, and a different error message is propagated. -/
theorem middleware_error_handling_witness :
    (concurrencyMiddleware "job" ⟨"PUT", some "42"⟩ []
        (.error lockTimeoutMessage)
      = (.conflict409 conflictMessage, [])) ∧
    concurrencyMiddleware "job" ⟨"PUT", some "42"⟩ []
        (.error "clock failure")
      = (.nextError "clock failure", []) :=
  ⟨(middleware_error_handling "job" ⟨"PUT", some "42"⟩ [] (by decide)
      (by decide)).1,
    (middleware_error_handling "job" ⟨"PUT", some "42"⟩ [] (by decide)
      (by decide)).2 "clock failure" (by decide)⟩

/-! ### Timing of the acquire wait loop (C2, C10, C9) -/

theorem acquirePoll_allHeld (maxWaitTime n : Nat)
    (h : 100 * n ≤ maxWaitTime + 100) :
    ∃ t, acquirePoll (fun _ => true) maxWaitTime n = .timeout t ∧
      maxWaitTime < t ∧ t ≤ maxWaitTime + 100 := by
  rw [acquirePoll]
  simp only [if_true]
  by_cases hc : 100 * n > maxWaitTime
  · rw [if_pos hc]
    exact ⟨100 * n, rfl, hc, h⟩
  · rw [if_neg hc]
    exact acquirePoll_allHeld maxWaitTime (n + 1) (by omega)
termination_by maxWaitTime / 100 + 1 - n
decreasing_by
  have : n ≤ maxWaitTime / 100 :=
    (Nat.le_div_iff_mul_le (by omega)).mpr (by omega)
  omega

/-- C2: against a key that stays continuously held, `acquireLock` throws
the lock-timeout error at an elapsed time `t` with
`maxWaitTime < t ≤ maxWaitTime + 100` — strictly after the deadline but
within one 100 ms poll interval of it, never earlier and never later. -/
theorem acquire_timeout_correctness (maxWaitTime : Nat) :
    ∃ t, acquirePoll (fun _ => true) maxWaitTime 0 = .timeout t ∧
      maxWaitTime < t ∧ t ≤ maxWaitTime + 100 :=
  acquirePoll_allHeld maxWaitTime 0 (by omega)

theorem acquirePoll_success_of_free (held : Nat → Bool) (maxWaitTime k : Nat) :
    ∀ m, m ≤ k → (∀ n, n < k → held n = true) → held k = false →
      (∀ n, n < k → 100 * n ≤ maxWaitTime) →
      acquirePoll held maxWaitTime m = .success (100 * k) := by
  intro m hm hheld hfree hok
  rw [acquirePoll]
  by_cases hmk : m = k
  · rw [hmk, hfree]
    simp
  · have hmlt : m < k := lt_of_le_of_ne hm hmk
    rw [hheld m hmlt]
    simp only [if_true]
    rw [if_neg (by have := hok m hmlt; omega)]
    exact acquirePoll_success_of_free held maxWaitTime k (m + 1) hmlt hheld
      hfree hok
termination_by m => k - m

theorem acquirePoll_timeout_of_held (held : Nat → Bool) (maxWaitTime : Nat) :
    ∀ n t, acquirePoll held maxWaitTime n = .timeout t →
      held (t / 100) = true ∧ maxWaitTime < t := by
  intro n t hres
  rw [acquirePoll] at hres
  cases hh : held n with
  | false =>
      rw [hh] at hres
      simp at hres
  | true =>
      rw [hh] at hres
      simp only [if_true] at hres
      by_cases hc : 100 * n > maxWaitTime
      · rw [if_pos hc] at hres
        have ht : t = 100 * n := by
          cases hres
          rfl
        rw [ht, Nat.mul_div_cancel_left n (by omega)]
        exact ⟨hh, by omega⟩
      · rw [if_neg hc] at hres
        exact acquirePoll_timeout_of_held held maxWaitTime (n + 1) t hres
termination_by n => maxWaitTime / 100 + 1 - n
decreasing_by
  have : n ≤ maxWaitTime / 100 :=
    (Nat.le_div_iff_mul_le (by omega)).mpr (by omega)
  omega

/-- C10: the timeout is thrown only at a poll that observes the key still
held (second conjunct), so if the first poll observing the key free happens
at `100 * k` ms — even when that is already past `maxWaitTime` — the call
inserts and returns success at that poll (first conjunct); success strictly
later than `maxWaitTime` is therefore possible (see the witness). -/
theorem acquire_success_after_deadline (held : Nat → Bool)
    (maxWaitTime k : Nat) (hheld : ∀ n, n < k → held n = true)
    (hfree : held k = false)
    (hok : ∀ n, n < k → 100 * n ≤ maxWaitTime) :
    acquirePoll held maxWaitTime 0 = .success (100 * k) ∧
    ∀ (h : Nat → Bool) (w t : Nat),
      acquirePoll h w 0 = .timeout t → h (t / 100) = true ∧ w < t :=
  ⟨acquirePoll_success_of_free held maxWaitTime k 0 (Nat.zero_le k) hheld
      hfree hok,
    fun h w t hres => acquirePoll_timeout_of_held h w 0 t hres⟩

/-- Witness for C10: with `maxWaitTime = 250` and the key freed just before
the poll at 300 ms, the call succeeds at 300 ms, strictly later than the
250 ms deadline. -/
theorem acquire_success_after_deadline_witness :
    acquirePoll (fun n => decide (n < 3)) 250 0 = .success (100 * 3) ∧
      250 < 100 * 3 :=
  ⟨(acquire_success_after_deadline (fun n => decide (n < 3)) 250 3
      (fun n hn => decide_eq_true hn)
      (by decide)
      (fun n hn => by omega)).1,
    by omega⟩

/-! ### Staleness sweep (C6) and its interaction with timeouts (C9) -/

theorem hasKey_cons (q : String × LockEntry) (tl : LockTable) (k : String) :
    hasKey (q :: tl) k = (q.1 == k || hasKey tl k) := by
  simp [hasKey]

theorem hasKey_cleanup_of_stale (now : Nat) (k : String) (e : LockEntry) :
    ∀ tbl : LockTable, keysNodup tbl → findEntry tbl k = some e →
      staleMaxAge < now - e.timestamp →
      hasKey (cleanupStaleLocks now tbl) k = false := by
  intro tbl
  induction tbl with
  | nil =>
      intro _ hf _
      simp [findEntry] at hf
  | cons q tl ih =>
      intro hnd hf hstale
      have hnd' : keysNodup tl := by
        unfold keysNodup at hnd ⊢
        rw [List.map_cons, List.nodup_cons] at hnd
        exact hnd.2
      have hq : q.1 ∉ tl.map Prod.fst := by
        unfold keysNodup at hnd
        rw [List.map_cons, List.nodup_cons] at hnd
        exact hnd.1
      by_cases hqk : q.1 = k
      · have hqe : q.2 = e := by
          unfold findEntry at hf
          rw [List.find?_cons] at hf
          have hb : (q.1 == k) = true := by simp [hqk]
          rw [hb] at hf
          simpa using hf
        unfold cleanupStaleLocks
        rw [List.filter_cons]
        have hpred : (!(now - q.2.timestamp > staleMaxAge)) = false := by
          rw [hqe]
          simp [hstale]
        rw [if_neg (by simp [hpred])]
        apply hasKey_filter_false
        rw [hasKey_eq_false_iff, ← hqk]
        exact hq
      · have hf' : findEntry tl k = some e := by
          unfold findEntry at hf ⊢
          rw [List.find?_cons] at hf
          have hb : (q.1 == k) = false := by simp [hqk]
          rw [hb] at hf
          exact hf
        unfold cleanupStaleLocks at ih ⊢
        rw [List.filter_cons]
        by_cases hpred : (!(now - q.2.timestamp > staleMaxAge)) = true
        · rw [if_pos hpred, hasKey_cons]
          have hqf : (q.1 == k) = false := by simp [hqk]
          rw [hqf, Bool.false_or]
          exact ih hnd' hf' hstale
        · rw [if_neg hpred]
          exact ih hnd' hf' hstale

/-- C6: one sweep pass keeps exactly the entries whose age
`now - acquiredAt` is at most 30000 ms and drops all strictly older ones
(first conjunct); once the stale entry for a key has been reclaimed, an
`acquireLock` on that key succeeds at its very first poll, with no waiting
(second conjunct). -/
theorem cleanup_sweep_correctness (now : Nat) (tbl : LockTable) :
    (∀ k e, (k, e) ∈ cleanupStaleLocks now tbl ↔
      ((k, e) ∈ tbl ∧ now - e.timestamp ≤ staleMaxAge)) ∧
    (∀ rt ri e maxWaitTime, keysNodup tbl →
      findEntry tbl (getLockKey rt ri) = some e →
      staleMaxAge < now - e.timestamp →
      (acquireNow rt ri now (cleanupStaleLocks now tbl)).isSome = true ∧
      acquirePoll (fun _ => hasKey (cleanupStaleLocks now tbl)
        (getLockKey rt ri)) maxWaitTime 0 = .success 0) := by
  constructor
  · intro k e
    simp [cleanupStaleLocks, List.mem_filter, Nat.not_lt]
  · intro rt ri e maxWaitTime hnd hf hstale
    have hfree := hasKey_cleanup_of_stale now (getLockKey rt ri) e tbl hnd
      hf hstale
    constructor
    · simp [acquireNow, hfree]
    · rw [acquirePoll]
      simp [hfree]

/-- Witness for C6: a lock on `("job","1")` acquired at time 0 is stale at
time 40000; the sweep removes it and an immediate re-acquire succeeds. -/
theorem cleanup_sweep_correctness_witness :
    (acquireNow "job" "1" 40000 (cleanupStaleLocks 40000
      [(getLockKey "job" "1", ⟨0, "job", "1"⟩)])).isSome = true :=
  ((cleanup_sweep_correctness 40000
      [(getLockKey "job" "1", ⟨0, "job", "1"⟩)]).2
    "job" "1" ⟨0, "job", "1"⟩ 5000 (by simp [keysNodup]) (by decide)
    (by decide)).1

/-- C9: the default `maxWaitTime` (5000 ms) is strictly below the sweep
threshold `maxAge` (30000 ms); a waiter with default parameters against a
never-released holder times out strictly after 5000 ms but still strictly
before the sweep reclaims the key at 30000 ms, and only a retry issued
after the sweep has reclaimed the entry acquires immediately. -/
theorem timeout_before_sweep :
    defaultMaxWaitTime < staleMaxAge ∧
    (∃ t, acquirePoll (fun _ => true) defaultMaxWaitTime 0 = .timeout t ∧
      defaultMaxWaitTime < t ∧ t < staleMaxAge) ∧
    (∀ rt ri now, staleMaxAge < now →
      hasKey (cleanupStaleLocks now [(getLockKey rt ri, ⟨0, rt, ri⟩)])
        (getLockKey rt ri) = false ∧
      (acquireNow rt ri now (cleanupStaleLocks now
        [(getLockKey rt ri, ⟨0, rt, ri⟩)])).isSome = true) := by
  refine ⟨by simp [defaultMaxWaitTime, staleMaxAge], ?_, ?_⟩
  · obtain ⟨t, h1, h2, h3⟩ := acquirePoll_allHeld defaultMaxWaitTime 0
      (by simp)
    refine ⟨t, h1, h2, ?_⟩
    simp [defaultMaxWaitTime] at h3
    simp [staleMaxAge]
    omega
  · intro rt ri now hnow
    have hfree : hasKey (cleanupStaleLocks now
        [(getLockKey rt ri, ⟨0, rt, ri⟩)]) (getLockKey rt ri) = false := by
      simp [cleanupStaleLocks, List.filter_cons, hnow, hasKey]
    exact ⟨hfree, by simp [acquireNow, hfree]⟩

/-- Witness for C9's reclamation clause: at time 30001 the sweep has
removed the entry acquired at time 0 for `("job","1")`. -/
theorem timeout_before_sweep_witness :
    hasKey (cleanupStaleLocks 30001 [(getLockKey "job" "1", ⟨0, "job", "1"⟩)])
      (getLockKey "job" "1") = false :=
  (timeout_before_sweep.2.2 "job" "1" 30001 (by decide)).1

/-! ### Mutual exclusion (C1) -/

theorem initOk_inv (s : SysState) (h : InitOk s) : MutexInv s := by
  obtain ⟨ht, hh⟩ := h
  refine ⟨?_, ?_, ?_⟩
  · rw [keysNodup, ht]
    exact List.nodup_nil
  · intro i j rt ri rt' ri' hi _ _
    exact absurd hi (hh i rt ri)
  · intro i rt ri hi
    exact absurd hi (hh i rt ri)

theorem keysNodup_filter_len (k : String) :
    ∀ tbl : LockTable, keysNodup tbl →
      (tbl.filter (fun p => p.1 == k)).length ≤ 1 := by
  intro tbl
  induction tbl with
  | nil => intro _; simp
  | cons q tl ih =>
      intro hnd
      rw [keysNodup, List.map_cons, List.nodup_cons] at hnd
      obtain ⟨hq, hnd'⟩ := hnd
      rw [List.filter_cons]
      by_cases hqk : q.1 = k
      · have hemp : tl.filter (fun p => p.1 == k) = [] := by
          rw [List.filter_eq_nil_iff]
          intro p hp hpk
          apply hq
          rw [List.mem_map]
          refine ⟨p, hp, ?_⟩
          rw [beq_iff_eq] at hpk
          rw [hpk, hqk]
        rw [if_pos (by simp [hqk]), hemp]
        simp
      · rw [if_neg (by simp [hqk])]
        exact ih hnd'

theorem lockStep_preserves (s s' : SysState) (hst : LockStep s s')
    (hinv : MutexInv s) : MutexInv s' := by
  obtain ⟨hnd, huniq, hhas⟩ := hinv
  cases hst with
  | acquireWin i rt ri now hw hfree =>
      refine ⟨?_, ?_, ?_⟩
      · show keysNodup (setKey s.table (getLockKey rt ri) ⟨now, rt, ri⟩)
        rw [setKey_of_not_has _ _ _ hfree]
        exact keysNodup_append_new _ _ _ hfree hnd
      · intro a b rt₁ ri₁ rt₂ ri₂ ha hb hk
        simp only [updateTask] at ha hb
        by_cases hai : a = i <;> by_cases hbi : b = i
        · rw [hai, hbi]
        · exfalso
          rw [if_pos hai] at ha
          rw [if_neg hbi] at hb
          have h1 : rt₁ = rt ∧ ri₁ = ri := by
            cases ha
            exact ⟨rfl, rfl⟩
          have h2 := hhas b rt₂ ri₂ hb
          rw [← hk, h1.1, h1.2] at h2
          rw [h2] at hfree
          cases hfree
        · exfalso
          rw [if_neg hai] at ha
          rw [if_pos hbi] at hb
          have h1 : rt₂ = rt ∧ ri₂ = ri := by
            cases hb
            exact ⟨rfl, rfl⟩
          have h2 := hhas a rt₁ ri₁ ha
          rw [hk, h1.1, h1.2] at h2
          rw [h2] at hfree
          cases hfree
        · rw [if_neg hai] at ha
          rw [if_neg hbi] at hb
          exact huniq a b rt₁ ri₁ rt₂ ri₂ ha hb hk
      · intro j rt' ri' hj
        show hasKey (setKey s.table (getLockKey rt ri) ⟨now, rt, ri⟩)
          (getLockKey rt' ri') = true
        rw [setKey_of_not_has _ _ _ hfree, hasKey_append]
        simp only [updateTask] at hj
        by_cases hji : j = i
        · rw [if_pos hji] at hj
          have h1 : rt' = rt ∧ ri' = ri := by
            cases hj
            exact ⟨rfl, rfl⟩
          rw [h1.1, h1.2]
          have : hasKey [(getLockKey rt ri, (⟨now, rt, ri⟩ : LockEntry))]
              (getLockKey rt ri) = true := by
            simp [hasKey]
          rw [this, Bool.or_true]
        · rw [if_neg hji] at hj
          rw [hhas j rt' ri' hj, Bool.true_or]
  | acquireTimeout i rt ri hw hheld =>
      refine ⟨hnd, ?_, ?_⟩
      · intro a b rt₁ ri₁ rt₂ ri₂ ha hb hk
        simp only [updateTask] at ha hb
        by_cases hai : a = i
        · rw [if_pos hai] at ha
          cases ha
        · by_cases hbi : b = i
          · rw [if_pos hbi] at hb
            cases hb
          · rw [if_neg hai] at ha
            rw [if_neg hbi] at hb
            exact huniq a b rt₁ ri₁ rt₂ ri₂ ha hb hk
      · intro j rt' ri' hj
        simp only [updateTask] at hj
        by_cases hji : j = i
        · rw [if_pos hji] at hj
          cases hj
        · rw [if_neg hji] at hj
          exact hhas j rt' ri' hj
  | releaseStep i rt ri hh =>
      have hkey : hasKey s.table (getLockKey rt ri) = true := hhas i rt ri hh
      have hrel : (releaseLock rt ri s.table).1
          = deleteKey s.table (getLockKey rt ri) := by
        simp [releaseLock, hkey]
      refine ⟨?_, ?_, ?_⟩
      · show keysNodup (releaseLock rt ri s.table).1
        rw [hrel]
        exact keysNodup_deleteKey _ _ hnd
      · intro a b rt₁ ri₁ rt₂ ri₂ ha hb hk
        simp only [updateTask] at ha hb
        by_cases hai : a = i
        · rw [if_pos hai] at ha
          cases ha
        · by_cases hbi : b = i
          · rw [if_pos hbi] at hb
            cases hb
          · rw [if_neg hai] at ha
            rw [if_neg hbi] at hb
            exact huniq a b rt₁ ri₁ rt₂ ri₂ ha hb hk
      · intro j rt' ri' hj
        simp only [updateTask] at hj
        by_cases hji : j = i
        · rw [if_pos hji] at hj
          cases hj
        · rw [if_neg hji] at hj
          have hjh := hhas j rt' ri' hj
          have hne : getLockKey rt' ri' ≠ getLockKey rt ri := by
            intro he
            exact hji (huniq j i rt' ri' rt ri hj hh he)
          show hasKey (releaseLock rt ri s.table).1 (getLockKey rt' ri')
            = true
          rw [hrel, hasKey_deleteKey_ne _ _ _ hne]
          exact hjh

/-- C1: in every state reachable from a legal start state by interleaved
atomic event-loop turns, the lock table holds at most one entry per
serialized lock key, and at most one task holds the lock for any given key
— when several concurrent `acquireLock` calls poll the same free key,
whichever wins performs the insert in the same atomic turn as its check,
so all others observe the key held and keep waiting or time out. -/
theorem lock_mutual_exclusion (s₀ s : SysState) (h0 : InitOk s₀)
    (hr : Reachable s₀ s) :
    (∀ k, (s.table.filter (fun p => p.1 == k)).length ≤ 1) ∧
    (∀ i j rt ri rt' ri', s.tasks i = .holding rt ri →
      s.tasks j = .holding rt' ri' →
      getLockKey rt ri = getLockKey rt' ri' → i = j) := by
  have hinv : MutexInv s := by
    induction hr with
    | refl => exact initOk_inv s₀ h0
    | tail _ hstep ih => exact lockStep_preserves _ _ hstep ih
  exact ⟨fun k => keysNodup_filter_len k s.table hinv.1, hinv.2.1⟩

/-- Witness for C1: from the empty table with every task waiting on
`("job","1")`, task 0's winning acquire step leads to a state whose table
has at most one entry for the key `"job:1"`. -/
theorem lock_mutual_exclusion_witness :
    ((setKey [] (getLockKey "job" "1") ⟨5, "job", "1"⟩).filter
      (fun p => p.1 == "job:1")).length ≤ 1 :=
  (lock_mutual_exclusion ⟨[], fun _ => .waiting "job" "1"⟩
    ⟨setKey [] (getLockKey "job" "1") ⟨5, "job", "1"⟩,
      updateTask (fun _ => .waiting "job" "1") 0 (.holding "job" "1")⟩
    ⟨rfl, fun _ _ _ h => TaskState.noConfusion h⟩
    (Relation.ReflTransGen.single
      (LockStep.acquireWin ⟨[], fun _ => .waiting "job" "1"⟩ 0 "job" "1" 5
        rfl rfl))).1 "job:1"

end KpiLock
